import Mathlib

/-!
Verification of the line-walking and file I/O primitives of `src/file.rs`
(forward and reverse buffer line walkers, `read_all`, `write_all`,
`mmap_file`, `file_for_each_line`).

Buffers are modelled as `List Nat` of byte values.  The walkers' observable
behaviour is the sequence of lines handed to the callback, so each walker is
modelled as a function returning that trace (the Rust functions return `()`;
the trace is what the callback observes).  OS interaction (`read`, `write`,
the filesystem) is modelled by explicit event schedules and a path-to-content
map, as detailed at each definition.
-/

/-! ## Definitions -/

/-- The line-feed byte `b'\n'`. -/
def LF : Nat := 10

/-- The carriage-return byte `b'\r'`. -/
def CR : Nat := 13

/-- Strip a single trailing carriage-return, mirroring the walkers' policy
`if end > pos && buf[end - 1] == b'\r' { len -= 1 }` applied to a segment:
the produced line is the segment minus one final CR byte, if present. -/
def stripCR (s : List Nat) : List Nat :=
  if s.getLast? = some CR then s.dropLast else s

/-- The loop condition test of the inner scans: the byte is not a LF. -/
def nonLF : Nat → Bool := fun b => b ≠ LF

/-- The inner scan of `buffer_for_each_line`:
`while end < size && buf[end] != b'\n' { end += 1 }` starting from `e`.
The loop stops at the first index `≥ e` holding `LF`, or at `buf.length`;
equivalently it advances past the longest LF-free run starting at `e`. -/
def findEnd (buf : List Nat) (e : Nat) : Nat :=
  e + ((buf.drop e).takeWhile nonLF).length

/-- The inner scan of `buffer_for_each_line_reverse`:
`while pos > 0 && buf[pos - 1] != b'\n' { pos -= 1 }`. -/
def findStart (buf : List Nat) : Nat → Nat
  | 0 => 0
  | p + 1 => if buf.getD p 0 ≠ LF then findStart buf p else p + 1

/-- The loop of `buffer_for_each_line` (src/file.rs lines 66-92), started at
cursor `pos`; returns the list of lines passed to the callback `cb`,
including the line on which `cb` returned `true` (the `break` case). -/
def fwTrace (buf : List Nat) (cb : List Nat → Bool) (pos : Nat) :
    List (List Nat) :=
  if pos < buf.length then
    let e := findEnd buf pos
    let len := if pos < e ∧ buf.getD (e - 1) 0 = CR then e - pos - 1 else e - pos
    let line := (buf.drop pos).take len
    if cb line then [line] else line :: fwTrace buf cb (e + 1)
  else []
termination_by buf.length - pos
decreasing_by
  have : pos ≤ findEnd buf pos := Nat.le_add_right _ _
  omega

/-- Entry of `buffer_for_each_line` (src/file.rs lines 66-92): iterate lines of `buf`
from the start (`let mut pos = 0`), reported as the callback trace. -/
def buffer_for_each_line (buf : List Nat) (cb : List Nat → Bool) :
    List (List Nat) :=
  fwTrace buf cb 0

/-- The delimiter-exclusion step at the top of the reverse loop
(src/file.rs lines 104-111): drop a CRLF pair (`end -= 2`, guarded by
`end > 1`) or a lone LF (`end -= 1`) at the boundary cursor. -/
def rvBound (buf : List Nat) (e : Nat) : Nat :=
  if 1 < e ∧ buf.getD e 0 = LF ∧ buf.getD (e - 1) 0 = CR then e - 2
  else if buf.getD e 0 = LF then e - 1 else e

/-- The loop of `buffer_for_each_line_reverse` (src/file.rs lines 94-130),
with boundary cursor `e`; returns the callback trace. -/
def rvTrace (buf : List Nat) (cb : List Nat → Bool) (e : Nat) :
    List (List Nat) :=
  if 0 < e then
    let e1 := rvBound buf e
    let pos := findStart buf e1
    let len := e1 - pos + 1
    let line := (buf.drop pos).take len
    let e2 := if 0 < pos then pos - 1 else 0
    if cb line then [line] else line :: rvTrace buf cb e2
  else []
termination_by e
decreasing_by
  have h1 : ∀ p, findStart buf p ≤ p := by
    intro p
    induction p with
    | zero => simp [findStart]
    | succ n ih =>
      simp only [findStart]
      split
      · exact Nat.le_succ_of_le ih
      · exact Nat.le_refl _
  have h2 : rvBound buf e ≤ e := by
    unfold rvBound
    split
    · omega
    · split <;> omega
  have h3 := h1 (rvBound buf e)
  split <;> omega

/-- Entry of `buffer_for_each_line_reverse` (src/file.rs lines 94-130):
`let mut end = buf.len(); if end > 0 { end -= 1 }` then the reverse loop. -/
def buffer_for_each_line_reverse (buf : List Nat) (cb : List Nat → Bool) :
    List (List Nat) :=
  rvTrace buf cb (buf.length - 1)

/-- A buffer made of the given LF-free segments, each terminated by a
line-feed byte: the shape `s1 ++ [LF] ++ s2 ++ [LF] ++ ...`. -/
def joinLF (S : List (List Nat)) : List Nat :=
  (S.map (fun s => s ++ [LF])).flatten

/-- Test that `b` is in the closed byte range `[lo, hi]`. -/
def inRange (lo hi b : Nat) : Bool := decide (lo ≤ b) && decide (b ≤ hi)

/-- A UTF-8 continuation byte `0x80..=0xBF`. -/
def utf8Cont (b : Nat) : Bool := inRange 0x80 0xBF b

/-- UTF-8 validity of a byte sequence as enforced by Rust's
`std::str::from_utf8` (RFC 3629): ASCII; two-byte `C2..=DF`; three-byte
`E0` / `E1..=EC` / `ED` / `EE..=EF` with overlong- and surrogate-excluding
first continuations; four-byte `F0` / `F1..=F3` / `F4` limited to
`U+10FFFF`. -/
def validUtf8 : List Nat → Bool
  | [] => true
  | b :: rest =>
    if b ≤ 0x7F then validUtf8 rest
    else if inRange 0xC2 0xDF b then
      match rest with
      | c1 :: r => utf8Cont c1 && validUtf8 r
      | [] => false
    else if b = 0xE0 then
      match rest with
      | c1 :: c2 :: r => inRange 0xA0 0xBF c1 && utf8Cont c2 && validUtf8 r
      | _ => false
    else if inRange 0xE1 0xEC b then
      match rest with
      | c1 :: c2 :: r => utf8Cont c1 && utf8Cont c2 && validUtf8 r
      | _ => false
    else if b = 0xED then
      match rest with
      | c1 :: c2 :: r => inRange 0x80 0x9F c1 && utf8Cont c2 && validUtf8 r
      | _ => false
    else if inRange 0xEE 0xEF b then
      match rest with
      | c1 :: c2 :: r => utf8Cont c1 && utf8Cont c2 && validUtf8 r
      | _ => false
    else if b = 0xF0 then
      match rest with
      | c1 :: c2 :: c3 :: r =>
        inRange 0x90 0xBF c1 && utf8Cont c2 && utf8Cont c3 && validUtf8 r
      | _ => false
    else if inRange 0xF1 0xF3 b then
      match rest with
      | c1 :: c2 :: c3 :: r =>
        utf8Cont c1 && utf8Cont c2 && utf8Cont c3 && validUtf8 r
      | _ => false
    else if b = 0xF4 then
      match rest with
      | c1 :: c2 :: c3 :: r =>
        inRange 0x80 0x8F c1 && utf8Cont c2 && utf8Cont c3 && validUtf8 r
      | _ => false
    else false

/-- The forward walker with the decoding step modelled:
`cb(std::str::from_utf8(line).unwrap())` decodes each line before the
callback sees it, and an invalid line makes `unwrap` terminate the process
(a panic), modelled as `none`; normal termination returns `some` of the
callback trace. -/
def fwRun (buf : List Nat) (cb : List Nat → Bool) (pos : Nat) :
    Option (List (List Nat)) :=
  if pos < buf.length then
    let e := findEnd buf pos
    let len := if pos < e ∧ buf.getD (e - 1) 0 = CR then e - pos - 1 else e - pos
    let line := (buf.drop pos).take len
    if validUtf8 line then
      if cb line then some [line]
      else (fwRun buf cb (e + 1)).map (fun t => line :: t)
    else none
  else some []
termination_by buf.length - pos
decreasing_by
  have : pos ≤ findEnd buf pos := Nat.le_add_right _ _
  omega

/-- The reverse walker with the decoding step modelled, as in `fwRun`. -/
def rvRun (buf : List Nat) (cb : List Nat → Bool) (e : Nat) :
    Option (List (List Nat)) :=
  if 0 < e then
    let e1 := rvBound buf e
    let pos := findStart buf e1
    let len := e1 - pos + 1
    let line := (buf.drop pos).take len
    let e2 := if 0 < pos then pos - 1 else 0
    if validUtf8 line then
      if cb line then some [line]
      else (rvRun buf cb e2).map (fun t => line :: t)
    else none
  else some []
termination_by e
decreasing_by
  have h1 : ∀ p, findStart buf p ≤ p := by
    intro p
    induction p with
    | zero => simp [findStart]
    | succ n ih =>
      simp only [findStart]
      split
      · exact Nat.le_succ_of_le ih
      · exact Nat.le_refl _
  have h2 : rvBound buf e ≤ e := by
    unfold rvBound
    split
    · omega
    · split <;> omega
  have h3 := h1 (rvBound buf e)
  split <;> omega

/-- Entry point of `fwRun`, mirroring `buffer_for_each_line`. -/
def buffer_for_each_line_run (buf : List Nat) (cb : List Nat → Bool) :
    Option (List (List Nat)) :=
  fwRun buf cb 0

/-- Entry point of `rvRun`, mirroring `buffer_for_each_line_reverse`. -/
def buffer_for_each_line_reverse_run (buf : List Nat) (cb : List Nat → Bool) :
    Option (List (List Nat)) :=
  rvRun buf cb (buf.length - 1)

/-- Errors of the file-based reader: an open failure, a decoding failure
(`io::ErrorKind::InvalidData`, produced by `BufRead::lines` on invalid
UTF-8), or an error returned by the caller's callback. -/
inductive FileErr where
  | notFound : FileErr
  | invalidData : FileErr
  | cbErr : Nat → FileErr
deriving DecidableEq

/-- The lines yielded by `io::BufReader::lines` on the given content: split
at each LF; a final LF-terminated empty segment yields no line, a final
unterminated non-empty segment is yielded as-is; every LF-terminated
segment has one trailing CR stripped. -/
def rustLines (content : List Nat) : List (List Nat) :=
  match (content.splitOn LF).getLast? with
  | none => []
  | some s =>
    if s = [] then (content.splitOn LF).dropLast.map stripCR
    else (content.splitOn LF).dropLast.map stripCR ++ [s]

/-- The iteration of `file_for_each_line` over the buffered reader's lines:
each line is UTF-8-decoded by the reader (failure propagates as
`invalidData` via the `?` on `line`), then passed to the callback whose
failure propagates via the `?` on `cb(&line)`. -/
def fileLoop (ls : List (List Nat)) (cb : List Nat → Except Nat Unit) :
    Except FileErr Unit :=
  match ls with
  | [] => Except.ok ()
  | l :: rest =>
    if validUtf8 l then
      match cb l with
      | Except.ok _ => fileLoop rest cb
      | Except.error e => Except.error (FileErr.cbErr e)
    else Except.error FileErr.invalidData

/-- Model of `file_for_each_line` (src/file.rs lines 132-145).  The filesystem is
modelled as a map from path to optional content (`none`: the open fails). -/
def file_for_each_line (fs : String → Option (List Nat)) (name : String)
    (cb : List Nat → Except Nat Unit) : Except FileErr Unit :=
  match fs name with
  | none => Except.error FileErr.notFound
  | some content => fileLoop (rustLines content) cb

/-- One OS-level `file.read(&mut buf[pos..])` outcome: `ok n` (a read of
`n` bytes, `0` meaning end-of-file), a transient
`io::ErrorKind::Interrupted`, or another error with payload `e`. -/
inductive ReadEvent where
  | ok : Nat → ReadEvent
  | interrupted : ReadEvent
  | err : Nat → ReadEvent
deriving DecidableEq

/-- The read loop of `read_all` (src/file.rs lines 34-41) over a schedule of
OS read outcomes, with fill position `pos`.  `none` means the schedule was
exhausted before the loop finished (no real execution corresponds to it);
otherwise the result is the function's `io::Result<usize>`. -/
def readLoop (buflen pos : Nat) (sched : List ReadEvent) :
    Option (Except Nat Nat) :=
  if pos < buflen then
    match sched with
    | [] => none
    | ReadEvent.ok 0 :: _ => some (Except.ok pos)
    | ReadEvent.ok (n + 1) :: rest => readLoop buflen (pos + (n + 1)) rest
    | ReadEvent.interrupted :: rest => readLoop buflen pos rest
    | ReadEvent.err e :: _ => some (Except.error e)
  else some (Except.ok pos)

/-- A schedule is valid for a regular file of `fileLen` bytes when every
event consumed while the loop runs respects POSIX `read` semantics at its
fill position: a read returns `0` exactly at end-of-file, and otherwise
transfers at most the remaining buffer space and at most the remaining
file bytes (the file offset equals `pos`: both start at `0` after the seek
and advance together).  Events past the loop's exit are unconstrained, and
a running loop must still have events (`[]` is invalid there). -/
def validSched (fileLen buflen pos : Nat) : List ReadEvent → Bool
  | [] => decide (¬ pos < buflen)
  | ReadEvent.ok 0 :: _ => if pos < buflen then decide (fileLen ≤ pos) else true
  | ReadEvent.ok (n + 1) :: rest =>
    if pos < buflen then
      decide (pos + (n + 1) ≤ buflen) && decide (pos + (n + 1) ≤ fileLen) &&
        validSched fileLen buflen (pos + (n + 1)) rest
    else true
  | ReadEvent.interrupted :: rest =>
    if pos < buflen then validSched fileLen buflen pos rest else true
  | ReadEvent.err _ :: _ => true

/-- Model of `read_all` (src/file.rs lines 24-44): the file is modelled by its
metadata length `fileLen`, the caller's buffer by its length `buflen`, and
the sequence of OS reads by `sched`.  The early return happens before any
read, so the schedule is untouched in that case. -/
def read_all (fileLen buflen : Nat) (sched : List ReadEvent) :
    Option (Except Nat Nat) :=
  if fileLen = 0 ∨ buflen = 0 then some (Except.ok 0)
  else readLoop buflen 0 sched

/-- One OS-level `write` outcome inside `Write::write_all`: `ok n` (`n`
bytes accepted, `0` triggering the `WriteZero` error), a transient
interruption, or another error with payload `e`. -/
inductive WriteEvent where
  | ok : Nat → WriteEvent
  | interrupted : WriteEvent
  | err : Nat → WriteEvent
deriving DecidableEq

/-- Error payload used for the `io::ErrorKind::WriteZero` failure that
`Write::write_all` produces when a write returns 0. -/
def writeZeroErr : Nat := 0

/-- The loop of `Write::write_all` over a schedule of OS write outcomes,
with `rem` bytes left to write out of a `buflen`-byte buffer; on success
`write_all` returns `Ok(buf.len())`.  `none` means the schedule was
exhausted, or an event over-reported (`n > rem`): no real execution
corresponds to it. -/
def writeAllLoop (buflen rem : Nat) (sched : List WriteEvent) :
    Option (Except Nat Nat) :=
  if rem = 0 then some (Except.ok buflen)
  else
    match sched with
    | [] => none
    | WriteEvent.ok 0 :: _ => some (Except.error writeZeroErr)
    | WriteEvent.ok (n + 1) :: rest =>
      if n + 1 ≤ rem then writeAllLoop buflen (rem - (n + 1)) rest else none
    | WriteEvent.interrupted :: rest => writeAllLoop buflen rem rest
    | WriteEvent.err e :: _ => some (Except.error e)

/-- Model of `write_all` (src/file.rs lines 47-50): `file.write_all(buf)?` then
`Ok(buf.len())`; the buffer is modelled by its length. -/
def write_all (buflen : Nat) (sched : List WriteEvent) :
    Option (Except Nat Nat) :=
  writeAllLoop buflen buflen sched

/-- Errors of `mmap_file`: the `File::open` failure, or the explicit
`Error::new(ErrorKind::Other, "File is empty or does not exist.")` taken
when the file size is zero. -/
inductive MmapErr where
  | openFail : MmapErr
  | emptyFile : MmapErr
deriving DecidableEq

/-- Model of `mmap_file` (src/file.rs lines 53-64): open the path (the filesystem is
a map from path to optional content), query the size, and either map the
whole content (returned with its length) or fail on a zero-sized file. -/
def mmap_file (fs : String → Option (List Nat)) (filename : String) :
    Except MmapErr (List Nat × Nat) :=
  match fs filename with
  | none => Except.error MmapErr.openFail
  | some content =>
    if content.length > 0 then Except.ok (content, content.length)
    else Except.error MmapErr.emptyFile

/-- A small concrete filesystem used to instantiate the theorems about
path-based operations. -/
def testFs : String → Option (List Nat) :=
  fun name =>
    if name = "a.txt" then some [104, 105]
    else if name = "empty.txt" then some []
    else if name = "bad.txt" then some [255]
    else none

/-! ## Helper lemmas about the scans -/

theorem findStart_le (buf : List Nat) (p : Nat) : findStart buf p ≤ p := by
  induction p with
  | zero => simp [findStart]
  | succ n ih =>
    simp only [findStart]
    split
    · exact Nat.le_succ_of_le ih
    · exact Nat.le_refl _

theorem rvBound_le (buf : List Nat) (e : Nat) : rvBound buf e ≤ e := by
  unfold rvBound
  split
  · omega
  · split <;> omega

theorem getD_drop (l : List Nat) (i j : Nat) :
    (l.drop i).getD j 0 = l.getD (i + j) 0 := by
  simp [List.getD_eq_getElem?_getD, List.getElem?_drop]

theorem findEnd_drop (buf : List Nat) (pos : Nat) :
    findEnd buf pos = pos + findEnd (buf.drop pos) 0 := by
  simp [findEnd]

theorem nonLF_iff (b : Nat) : nonLF b = true ↔ b ≠ LF := by
  simp [nonLF]

theorem nonLF_LF : nonLF LF = false := by
  simp [nonLF]

theorem takeWhile_nonLF_eq_self (s : List Nat) (hs : LF ∉ s) :
    s.takeWhile nonLF = s := by
  induction s with
  | nil => rfl
  | cons a l ih =>
    rw [List.takeWhile_cons]
    have ha : nonLF a = true :=
      (nonLF_iff a).mpr (fun h => hs (h ▸ List.mem_cons_self a l))
    rw [if_pos ha, ih (fun h => hs (List.mem_cons_of_mem a h))]

theorem findEnd_of_nonLF (s : List Nat) (hs : LF ∉ s) :
    findEnd s 0 = s.length := by
  simp [findEnd, takeWhile_nonLF_eq_self s hs]

theorem findEnd_append (s rest : List Nat) (hs : LF ∉ s) :
    findEnd (s ++ LF :: rest) 0 = s.length := by
  simp only [findEnd, List.drop_zero, Nat.zero_add]
  rw [List.takeWhile_append, takeWhile_nonLF_eq_self s hs]
  rw [List.takeWhile_cons, nonLF_LF]
  simp

theorem getLast_CR_iff (s : List Nat) (hs : s ≠ []) :
    s.getLast? = some CR ↔ s.getD (s.length - 1) 0 = CR := by
  have h : s.length - 1 < s.length := by
    cases s with
    | nil => exact absurd rfl hs
    | cons a l => simp
  rw [List.getLast?_eq_getElem?, List.getD_eq_getElem?_getD,
    List.getElem?_eq_getElem h]
  simp

/-- The forward loop only looks at the buffer from `pos` onward: running it
at `pos` equals running it at 0 on the dropped buffer. -/
theorem fwTrace_shift (cb : List Nat → Bool) :
    ∀ (n : Nat) (buf : List Nat) (pos : Nat), buf.length - pos ≤ n →
      fwTrace buf cb pos = fwTrace (buf.drop pos) cb 0 := by
  intro n
  induction n with
  | zero =>
    intro buf pos h
    rw [fwTrace.eq_def, fwTrace.eq_def]
    have h1 : ¬ pos < buf.length := by omega
    have h2 : ¬ 0 < (buf.drop pos).length := by simp; omega
    simp [h1, h2]
  | succ n ih =>
    intro buf pos h
    rw [fwTrace.eq_def, fwTrace.eq_def]
    by_cases h1 : pos < buf.length
    · have h2 : 0 < (buf.drop pos).length := by simp; omega
      simp only [h1, h2, if_pos]
      have he : findEnd buf pos = pos + findEnd (buf.drop pos) 0 :=
        findEnd_drop buf pos
      set e' := findEnd (buf.drop pos) 0 with he'
      have hcond : (pos < findEnd buf pos ∧ buf.getD (findEnd buf pos - 1) 0 = CR)
          ↔ (0 < e' ∧ (buf.drop pos).getD (e' - 1) 0 = CR) := by
        rw [he]
        constructor
        · rintro ⟨ha, hb⟩
          refine ⟨by omega, ?_⟩
          rw [getD_drop]
          have hx : pos + (e' - 1) = pos + e' - 1 := by omega
          rw [hx]; exact hb
        · rintro ⟨ha, hb⟩
          refine ⟨by omega, ?_⟩
          rw [getD_drop] at hb
          have hx : pos + (e' - 1) = pos + e' - 1 := by omega
          rw [hx] at hb; exact hb
      have hlen : (if pos < findEnd buf pos ∧ buf.getD (findEnd buf pos - 1) 0 = CR
            then findEnd buf pos - pos - 1 else findEnd buf pos - pos)
          = (if 0 < e' ∧ (buf.drop pos).getD (e' - 1) 0 = CR
            then e' - 0 - 1 else e' - 0) := by
        by_cases hc : 0 < e' ∧ (buf.drop pos).getD (e' - 1) 0 = CR
        · rw [if_pos (hcond.mpr hc), if_pos hc, he]; omega
        · rw [if_neg (fun hx => hc (hcond.mp hx)), if_neg hc, he]; omega
      rw [hlen]
      have hline : (buf.drop pos).take
            ((if 0 < e' ∧ (buf.drop pos).getD (e' - 1) 0 = CR
              then e' - 0 - 1 else e' - 0))
          = ((buf.drop pos).drop 0).take
            ((if 0 < e' ∧ (buf.drop pos).getD (e' - 1) 0 = CR
              then e' - 0 - 1 else e' - 0)) := by
        simp
      rw [← hline]
      have hrec : fwTrace buf cb (findEnd buf pos + 1)
          = fwTrace (buf.drop pos) cb (e' + 1) := by
        rw [ih buf (findEnd buf pos + 1) (by omega),
            ih (buf.drop pos) (e' + 1) (by simp; omega)]
        rw [List.drop_drop, he]
        ring_nf
      rw [hrec]
    · have h2 : ¬ 0 < (buf.drop pos).length := by simp; omega
      simp [h1, h2]

/-- A non-empty LF-free buffer yields exactly one line: the whole content
with a single trailing CR stripped. -/
theorem fwTrace_terminal (s : List Nat) (cb : List Nat → Bool)
    (hs : LF ∉ s) (hne : s ≠ []) : fwTrace s cb 0 = [stripCR s] := by
  rw [fwTrace.eq_def]
  have h0 : 0 < s.length := List.length_pos.mpr hne
  simp only [h0, if_pos]
  have he : findEnd s 0 = s.length := findEnd_of_nonLF s hs
  have hstop : fwTrace s cb (findEnd s 0 + 1) = [] := by
    rw [fwTrace.eq_def]
    have hx : ¬ findEnd s 0 + 1 < s.length := by omega
    simp [hx]
  have hline : s.take (if 0 < findEnd s 0 ∧ s.getD (findEnd s 0 - 1) 0 = CR
      then findEnd s 0 - 0 - 1 else findEnd s 0 - 0) = stripCR s := by
    rw [he]
    by_cases hc : s.getLast? = some CR
    · have hg : s.getD (s.length - 1) 0 = CR := (getLast_CR_iff s hne).mp hc
      simp only [h0, hg, and_true, if_pos, true_and, Nat.sub_zero]
      rw [stripCR, if_pos hc, List.dropLast_eq_take]
    · have hg : ¬ s.getD (s.length - 1) 0 = CR :=
        fun hx => hc ((getLast_CR_iff s hne).mpr hx)
      simp only [hg, and_false, if_neg, Nat.sub_zero, not_false_iff]
      rw [stripCR, if_neg hc, List.take_length]
  simp only [List.drop_zero, hline, hstop]
  split <;> rfl

/-- Decomposition of the forward walker at the first line-feed: the first
line is the CR-stripped first segment, and the loop continues past the LF. -/
theorem fwTrace_cons (s rest : List Nat) (cb : List Nat → Bool) (hs : LF ∉ s) :
    fwTrace (s ++ LF :: rest) cb 0
      = if cb (stripCR s) then [stripCR s]
        else stripCR s :: fwTrace rest cb 0 := by
  rw [fwTrace.eq_def]
  have h0 : 0 < (s ++ LF :: rest).length := by simp
  simp only [h0, if_pos]
  have he : findEnd (s ++ LF :: rest) 0 = s.length := findEnd_append s rest hs
  have hline : (s ++ LF :: rest).take
      (if 0 < findEnd (s ++ LF :: rest) 0 ∧
          (s ++ LF :: rest).getD (findEnd (s ++ LF :: rest) 0 - 1) 0 = CR
        then findEnd (s ++ LF :: rest) 0 - 0 - 1
        else findEnd (s ++ LF :: rest) 0 - 0) = stripCR s := by
    rw [he]
    by_cases hne : s = []
    · subst hne; simp [stripCR]
    · have hlt : s.length - 1 < s.length := by
        have := List.length_pos.mpr hne; omega
      have hgd : (s ++ LF :: rest).getD (s.length - 1) 0
          = s.getD (s.length - 1) 0 := List.getD_append s (LF :: rest) 0 _ hlt
      by_cases hc : s.getLast? = some CR
      · have hg : s.getD (s.length - 1) 0 = CR := (getLast_CR_iff s hne).mp hc
        have h0s : 0 < s.length := List.length_pos.mpr hne
        simp only [hgd, hg, h0s, and_true, if_pos, true_and, Nat.sub_zero]
        rw [stripCR, if_pos hc, List.dropLast_eq_take,
          List.take_append_of_le_length (by omega)]
      · have hg : ¬ s.getD (s.length - 1) 0 = CR :=
          fun hx => hc ((getLast_CR_iff s hne).mpr hx)
        simp only [hgd, hg, and_false, if_neg, Nat.sub_zero, not_false_iff]
        rw [stripCR, if_neg hc]
        exact List.take_left s (LF :: rest)
  have hrec : fwTrace (s ++ LF :: rest) cb (findEnd (s ++ LF :: rest) 0 + 1)
      = fwTrace rest cb 0 := by
    rw [fwTrace_shift cb ((s ++ LF :: rest).length) _ _ (by omega), he]
    have hd : (s ++ LF :: rest).drop (s.length + 1) = rest := by
      have hx := @List.drop_append Nat s (LF :: rest) 1
      simp only [List.drop_one, List.tail_cons] at hx
      exact hx
    rw [hd]
  simp only [List.drop_zero, hline, hrec]

/-- Forward characterisation on LF-terminated buffers: the walker with a
never-stopping callback produces exactly the CR-stripped segments. -/
theorem fw_joinLF (S : List (List Nat)) (hS : ∀ s ∈ S, LF ∉ s) :
    buffer_for_each_line (joinLF S) (fun _ => false) = S.map stripCR := by
  induction S with
  | nil => simp [buffer_for_each_line, joinLF, fwTrace]
  | cons s S ih =>
    have hj : joinLF (s :: S) = s ++ LF :: joinLF S := by
      simp [joinLF, List.append_assoc]
    rw [buffer_for_each_line, hj,
      fwTrace_cons s (joinLF S) _ (hS s (List.mem_cons_self s S))]
    simp only [Bool.false_eq_true, if_false]
    rw [← buffer_for_each_line, ih (fun x hx => hS x (List.mem_cons_of_mem s hx))]
    rfl

/-! ## Reverse-walker lemmas -/

theorem getD_lt_mem (l : List Nat) (i : Nat) (h : i < l.length) :
    l.getD i 0 ∈ l := by
  rw [List.getD_eq_getElem?_getD, List.getElem?_eq_getElem h]
  simp only [Option.getD_some]
  exact List.getElem_mem h

/-- Where the backward scan stops: at `a` if the byte before `a` is a LF (or
`a` is the buffer start) and no byte in `[a, e)` is a LF. -/
theorem findStart_eq_of (buf : List Nat) (a : Nat)
    (ha : a = 0 ∨ buf.getD (a - 1) 0 = LF) :
    ∀ e, a ≤ e → (∀ j, a ≤ j → j < e → buf.getD j 0 ≠ LF) →
      findStart buf e = a := by
  intro e
  induction e with
  | zero =>
    intro hae _
    have : a = 0 := by omega
    simp [findStart, this]
  | succ p ih =>
    intro hae hj
    by_cases hap : a = p + 1
    · have hLF : buf.getD p 0 = LF := by
        rcases ha with h0 | hL
        · omega
        · have hx : a - 1 = p := by omega
          rw [← hx]; exact hL
      simp only [findStart]
      rw [if_neg (fun h => h hLF)]
      omega
    · have hap2 : a ≤ p := by omega
      have hcond : buf.getD p 0 ≠ LF := hj p hap2 (Nat.lt_succ_self p)
      simp only [findStart]
      rw [if_pos hcond]
      exact ih hap2 (fun j h1 h2 => hj j h1 (by omega))

theorem rvBound_append (p q : List Nat) (e : Nat) (h : e < p.length) :
    rvBound (p ++ q) e = rvBound p e := by
  unfold rvBound
  rw [List.getD_append p q 0 e h, List.getD_append p q 0 (e - 1) (by omega)]

theorem findStart_append (p q : List Nat) :
    ∀ x, x ≤ p.length → findStart (p ++ q) x = findStart p x := by
  intro x
  induction x with
  | zero => intro _; rfl
  | succ y ih =>
    intro hx
    simp only [findStart]
    rw [List.getD_append p q 0 y (by omega)]
    by_cases hc : p.getD y 0 ≠ LF
    · rw [if_pos hc, if_pos hc, ih (by omega)]
    · rw [if_neg hc, if_neg hc]

/-- The reverse loop only looks at the buffer up to its cursor: bytes past a
cursor inside a prefix are never consulted. -/
theorem rvTrace_prefix_eq (q : List Nat) (cb : List Nat → Bool) :
    ∀ (e : Nat) (p : List Nat), e < p.length →
      rvTrace (p ++ q) cb e = rvTrace p cb e := by
  intro e
  induction e using Nat.strong_induction_on with
  | _ e ih =>
    intro p he
    rw [rvTrace.eq_def, rvTrace.eq_def]
    by_cases h0 : 0 < e
    · simp only [h0, if_pos]
      have hb : rvBound (p ++ q) e = rvBound p e := rvBound_append p q e he
      have hble := rvBound_le p e
      have hf : findStart (p ++ q) (rvBound p e) = findStart p (rvBound p e) :=
        findStart_append p q (rvBound p e) (by omega)
      rw [hb, hf]
      have hfle := findStart_le p (rvBound p e)
      have hline : ((p ++ q).drop (findStart p (rvBound p e))).take
            (rvBound p e - findStart p (rvBound p e) + 1)
          = (p.drop (findStart p (rvBound p e))).take
            (rvBound p e - findStart p (rvBound p e) + 1) := by
        rw [List.drop_append_of_le_length (by omega)]
        exact List.take_append_of_le_length (by simp; omega)
      rw [hline]
      have h2 : (if 0 < findStart p (rvBound p e)
          then findStart p (rvBound p e) - 1 else 0) < e := by
        split <;> omega
      have h3 : (if 0 < findStart p (rvBound p e)
          then findStart p (rvBound p e) - 1 else 0) < p.length := by
        split <;> omega
      rw [ih _ h2 p h3]
    · simp [h0]

theorem joinLF_append (A B : List (List Nat)) :
    joinLF (A ++ B) = joinLF A ++ joinLF B := by
  simp [joinLF]

theorem joinLF_singleton (s : List Nat) : joinLF [s] = s ++ [LF] := by
  simp [joinLF]

theorem joinLF_ends_LF (S : List (List Nat)) (h : S ≠ []) :
    ∃ t, joinLF S = t ++ [LF] := by
  induction S with
  | nil => exact absurd rfl h
  | cons s S ih =>
    by_cases hS : S = []
    · subst hS
      exact ⟨s, by simp [joinLF]⟩
    · obtain ⟨t, ht⟩ := ih hS
      refine ⟨s ++ [LF] ++ t, ?_⟩
      have hx : joinLF (s :: S) = (s ++ [LF]) ++ joinLF S := by
        simp [joinLF]
      rw [hx, ht]
      simp [List.append_assoc]

/-- Reverse characterisation on LF-terminated buffers whose CR-stripped
segments are all non-empty: the reverse walker emits the CR-stripped
segments from last to first. -/
theorem rv_joinLF : ∀ (S : List (List Nat)),
    (∀ s ∈ S, LF ∉ s ∧ stripCR s ≠ []) →
    rvTrace (joinLF S) (fun _ => false) ((joinLF S).length - 1)
      = (S.map stripCR).reverse := by
  intro S
  induction S using List.reverseRecOn with
  | nil =>
    intro _
    rw [rvTrace.eq_def]
    simp [joinLF]
  | append_singleton S' s ih =>
    intro hS
    have hs : LF ∉ s := (hS s (by simp)).1
    have hst : stripCR s ≠ [] := (hS s (by simp)).2
    have hsne : s ≠ [] := by
      intro h
      rw [h] at hst
      simp [stripCR] at hst
    have hslen : 0 < s.length := List.length_pos.mpr hsne
    have hlpos : 0 < (stripCR s).length := List.length_pos.mpr hst
    have hB : joinLF (S' ++ [s]) = joinLF S' ++ (s ++ [LF]) := by
      rw [joinLF_append, joinLF_singleton]
    have hBlen : (joinLF (S' ++ [s])).length
        = (joinLF S').length + s.length + 1 := by
      rw [hB]; simp; omega
    have key : (stripCR s).length ≤ s.length ∧
        s.take (stripCR s).length = stripCR s ∧
        rvBound (joinLF (S' ++ [s])) ((joinLF S').length + s.length)
          = (joinLF S').length + (stripCR s).length - 1 := by
      have hgd_e0 : (joinLF (S' ++ [s])).getD ((joinLF S').length + s.length) 0
          = LF := by
        rw [hB, List.getD_append_right (joinLF S') (s ++ [LF]) 0 _ (by omega)]
        have hx : (joinLF S').length + s.length - (joinLF S').length
            = s.length := by omega
        rw [hx, List.getD_append_right s [LF] 0 s.length (Nat.le_refl _)]
        simp
      have hgd_e0m1 : (joinLF (S' ++ [s])).getD
          ((joinLF S').length + s.length - 1) 0 = s.getD (s.length - 1) 0 := by
        rw [hB, List.getD_append_right (joinLF S') (s ++ [LF]) 0 _ (by omega)]
        have hx : (joinLF S').length + s.length - 1 - (joinLF S').length
            = s.length - 1 := by omega
        rw [hx, List.getD_append s [LF] 0 (s.length - 1) (by omega)]
      by_cases hc : s.getLast? = some CR
      · have hg : s.getD (s.length - 1) 0 = CR := (getLast_CR_iff s hsne).mp hc
        have hll : (stripCR s).length = s.length - 1 := by
          rw [stripCR, if_pos hc, List.length_dropLast]
        have hs2 : 2 ≤ s.length := by omega
        refine ⟨by omega, ?_, ?_⟩
        · rw [hll, stripCR, if_pos hc, List.dropLast_eq_take]
        · unfold rvBound
          rw [if_pos ⟨by omega, hgd_e0, by rw [hgd_e0m1]; exact hg⟩]
          omega
      · have hg : s.getD (s.length - 1) 0 ≠ CR :=
          fun hx => hc ((getLast_CR_iff s hsne).mpr hx)
        have hll : (stripCR s).length = s.length := by
          rw [stripCR, if_neg hc]
        refine ⟨by omega, ?_, ?_⟩
        · rw [hll, stripCR, if_neg hc, List.take_length]
        · unfold rvBound
          rw [if_neg (by
            rintro ⟨h1, h2, h3⟩
            rw [hgd_e0m1] at h3
            exact hg h3)]
          rw [if_pos hgd_e0]
          omega
    obtain ⟨hlle, hlpre, hrvB⟩ := key
    have hfs : findStart (joinLF (S' ++ [s]))
        ((joinLF S').length + (stripCR s).length - 1) = (joinLF S').length := by
      apply findStart_eq_of
      · by_cases hS' : S' = []
        · left
          simp [hS', joinLF]
        · right
          obtain ⟨t, ht⟩ := joinLF_ends_LF S' hS'
          have hpl : (joinLF S').length = t.length + 1 := by rw [ht]; simp
          rw [hB, List.getD_append (joinLF S') (s ++ [LF]) 0 _ (by omega)]
          have hidx : (joinLF S').length - 1 = t.length := by omega
          rw [hidx, ht, List.getD_append_right t [LF] 0 t.length (Nat.le_refl _)]
          simp
      · omega
      · intro j hj1 hj2
        rw [hB, List.getD_append_right (joinLF S') (s ++ [LF]) 0 j hj1]
        have hjs : j - (joinLF S').length < s.length := by omega
        rw [List.getD_append s [LF] 0 _ hjs]
        intro hLF
        exact hs (hLF ▸ getD_lt_mem s _ hjs)
    have e0def : (joinLF (S' ++ [s])).length - 1
        = (joinLF S').length + s.length := by omega
    rw [e0def, rvTrace.eq_def]
    have h0 : 0 < (joinLF S').length + s.length := by omega
    simp only [h0, if_pos, hrvB, hfs]
    have hlen2 : (joinLF S').length + (stripCR s).length - 1
        - (joinLF S').length + 1 = (stripCR s).length := by omega
    rw [hlen2]
    have hline : ((joinLF (S' ++ [s])).drop (joinLF S').length).take
        (stripCR s).length = stripCR s := by
      rw [hB, List.drop_left (joinLF S') (s ++ [LF]),
        List.take_append_of_le_length hlle]
      exact hlpre
    rw [hline]
    simp only [Bool.false_eq_true, if_false]
    by_cases hS' : S' = []
    · subst hS'
      have hp0 : (joinLF ([] : List (List Nat))).length = 0 := by
        simp [joinLF]
      rw [hp0]
      simp only [Nat.lt_irrefl, if_neg, if_false]
      rw [rvTrace.eq_def]
      simp
    · have hppos : 0 < (joinLF S').length := by
        obtain ⟨t, ht⟩ := joinLF_ends_LF S' hS'
        rw [ht]; simp
      rw [if_pos hppos]
      have hpre : rvTrace (joinLF S' ++ (s ++ [LF])) (fun _ => false)
          ((joinLF S').length - 1)
          = rvTrace (joinLF S') (fun _ => false) ((joinLF S').length - 1) :=
        rvTrace_prefix_eq (s ++ [LF]) (fun _ => false) _ (joinLF S') (by omega)
      rw [hB, hpre, ih (fun x hx => hS x (List.mem_append_left _ hx))]
      simp

/-! ## Invariants of the walkers -/

/-- No line emitted by the forward loop contains a line-feed byte: every
line is a prefix of the LF-free run located by the inner scan. -/
theorem fwTrace_no_LF (buf : List Nat) (cb : List Nat → Bool) :
    ∀ (n : Nat) (pos : Nat), buf.length - pos ≤ n →
      ∀ l ∈ fwTrace buf cb pos, LF ∉ l := by
  intro n
  induction n with
  | zero =>
    intro pos h l hl
    rw [fwTrace.eq_def] at hl
    have h1 : ¬ pos < buf.length := by omega
    simp [h1] at hl
  | succ n ih =>
    intro pos h l hl
    rw [fwTrace.eq_def] at hl
    by_cases h1 : pos < buf.length
    · simp only [h1, if_pos] at hl
      set L := (buf.drop pos).take
          (if pos < findEnd buf pos ∧ buf.getD (findEnd buf pos - 1) 0 = CR
            then findEnd buf pos - pos - 1 else findEnd buf pos - pos) with hL
      have hline : ∀ x ∈ L, x ≠ LF := by
        intro x hx
        have hfe : findEnd buf pos - pos
            = ((buf.drop pos).takeWhile nonLF).length := by
          simp [findEnd]
        have hlen : (if pos < findEnd buf pos ∧
              buf.getD (findEnd buf pos - 1) 0 = CR
            then findEnd buf pos - pos - 1 else findEnd buf pos - pos)
            ≤ ((buf.drop pos).takeWhile nonLF).length := by
          split <;> omega
        rw [hL, ← List.takeWhile_append_dropWhile nonLF (buf.drop pos),
          List.take_append_of_le_length hlen] at hx
        exact (nonLF_iff x).mp (List.mem_takeWhile_imp (List.mem_of_mem_take hx))
      split at hl
      · rw [List.mem_singleton] at hl
        subst hl
        exact fun hLF => hline LF hLF rfl
      · rcases List.mem_cons.mp hl with rfl | hl2
        · exact fun hLF => hline LF hLF rfl
        · have hge : pos ≤ findEnd buf pos := Nat.le_add_right _ _
          exact ih (findEnd buf pos + 1) (by omega) l hl2
    · simp [h1] at hl

/-- The forward loop invokes the callback at most once per buffer byte. -/
theorem fwTrace_length_le (buf : List Nat) (cb : List Nat → Bool) :
    ∀ (n pos : Nat), buf.length - pos ≤ n →
      (fwTrace buf cb pos).length ≤ buf.length - pos := by
  intro n
  induction n with
  | zero =>
    intro pos h
    rw [fwTrace.eq_def]
    have h1 : ¬ pos < buf.length := by omega
    simp [h1]
  | succ n ih =>
    intro pos h
    rw [fwTrace.eq_def]
    by_cases h1 : pos < buf.length
    · simp only [h1, if_pos]
      have hge : pos ≤ findEnd buf pos := Nat.le_add_right _ _
      set L := (buf.drop pos).take
          (if pos < findEnd buf pos ∧ buf.getD (findEnd buf pos - 1) 0 = CR
            then findEnd buf pos - pos - 1 else findEnd buf pos - pos) with hL
      split
      · simp only [List.length_singleton]
        omega
      · simp only [List.length_cons]
        have := ih (findEnd buf pos + 1) (by omega)
        omega
    · simp [h1]

/-- The reverse loop invokes the callback at most `e` times: the boundary
cursor strictly decreases at each step. -/
theorem rvTrace_length_le (buf : List Nat) (cb : List Nat → Bool) :
    ∀ e, (rvTrace buf cb e).length ≤ e := by
  intro e
  induction e using Nat.strong_induction_on with
  | _ e ih =>
    rw [rvTrace.eq_def]
    by_cases h0 : 0 < e
    · simp only [h0, if_pos]
      have hfle := findStart_le buf (rvBound buf e)
      have hble := rvBound_le buf e
      split
      · simp only [List.length_singleton]
        omega
      · simp only [List.length_cons]
        have h2 : (if 0 < findStart buf (rvBound buf e)
            then findStart buf (rvBound buf e) - 1 else 0) < e := by
          split <;> omega
        have := ih _ h2
        omega
    · simp [h0]

/-! ## Decoding failure behaviour -/

/-- If some line of the callback trace is invalid UTF-8, the forward walker
panics: the run result is `none`. -/
theorem fwRun_none_of_invalid (buf : List Nat) :
    ∀ (n pos : Nat), buf.length - pos ≤ n →
      (∃ l ∈ fwTrace buf (fun _ => false) pos, validUtf8 l = false) →
      fwRun buf (fun _ => false) pos = none := by
  intro n
  induction n with
  | zero =>
    intro pos h hex
    obtain ⟨l, hl, _⟩ := hex
    rw [fwTrace.eq_def] at hl
    have h1 : ¬ pos < buf.length := by omega
    simp [h1] at hl
  | succ n ih =>
    intro pos h hex
    obtain ⟨l, hl, hlv⟩ := hex
    rw [fwTrace.eq_def] at hl
    rw [fwRun.eq_def]
    by_cases h1 : pos < buf.length
    · simp only [h1, if_pos] at hl ⊢
      set L := (buf.drop pos).take
          (if pos < findEnd buf pos ∧ buf.getD (findEnd buf pos - 1) 0 = CR
            then findEnd buf pos - pos - 1 else findEnd buf pos - pos) with hL
      simp only [Bool.false_eq_true, if_false] at hl ⊢
      by_cases hv : validUtf8 L = true
      · rw [if_pos hv]
        rcases List.mem_cons.mp hl with rfl | hl2
        · rw [hv] at hlv
          exact absurd hlv (by simp)
        · have hge : pos ≤ findEnd buf pos := Nat.le_add_right _ _
          rw [ih (findEnd buf pos + 1) (by omega) ⟨l, hl2, hlv⟩]
          rfl
      · rw [if_neg hv]
    · simp [h1] at hl

/-- If some line of the callback trace is invalid UTF-8, the reverse walker
panics: the run result is `none`. -/
theorem rvRun_none_of_invalid (buf : List Nat) :
    ∀ (e : Nat),
      (∃ l ∈ rvTrace buf (fun _ => false) e, validUtf8 l = false) →
      rvRun buf (fun _ => false) e = none := by
  intro e
  induction e using Nat.strong_induction_on with
  | _ e ih =>
    intro hex
    obtain ⟨l, hl, hlv⟩ := hex
    rw [rvTrace.eq_def] at hl
    rw [rvRun.eq_def]
    by_cases h0 : 0 < e
    · simp only [h0, if_pos] at hl ⊢
      set L := (buf.drop (findStart buf (rvBound buf e))).take
          (rvBound buf e - findStart buf (rvBound buf e) + 1) with hL
      simp only [Bool.false_eq_true, if_false] at hl ⊢
      by_cases hv : validUtf8 L = true
      · rw [if_pos hv]
        rcases List.mem_cons.mp hl with rfl | hl2
        · rw [hv] at hlv
          exact absurd hlv (by simp)
        · have hfle := findStart_le buf (rvBound buf e)
          have hble := rvBound_le buf e
          have h2 : (if 0 < findStart buf (rvBound buf e)
              then findStart buf (rvBound buf e) - 1 else 0) < e := by
            split <;> omega
          rw [ih _ h2 ⟨l, hl2, hlv⟩]
          rfl
      · rw [if_neg hv]
    · simp [h0] at hl

/-- A never-failing callback makes the reader surface an invalid-UTF-8 line
as the recoverable error `invalidData`. -/
theorem fileLoop_invalidData (cb : List Nat → Except Nat Unit)
    (hcb : ∀ l, cb l = Except.ok ()) :
    ∀ ls : List (List Nat), (∃ l ∈ ls, validUtf8 l = false) →
      fileLoop ls cb = Except.error FileErr.invalidData := by
  intro ls
  induction ls with
  | nil =>
    intro hex
    obtain ⟨l, hl, _⟩ := hex
    exact absurd hl (List.not_mem_nil l)
  | cons a rest ih =>
    intro hex
    obtain ⟨l, hl, hlv⟩ := hex
    simp only [fileLoop]
    by_cases hv : validUtf8 a = true
    · rw [if_pos hv, hcb a]
      rcases List.mem_cons.mp hl with rfl | hl2
      · rw [hv] at hlv
        exact absurd hlv (by simp)
      · exact ih ⟨l, hl2, hlv⟩
    · rw [if_neg hv]

/-! ## read_all and write_all lemmas -/

/-- Under a valid schedule the read loop either fills `min buflen fileLen`
bytes or surfaces an error from the schedule. -/
theorem readLoop_valid (fileLen buflen : Nat) :
    ∀ (sched : List ReadEvent) (pos : Nat), pos ≤ buflen → pos ≤ fileLen →
      validSched fileLen buflen pos sched = true →
      readLoop buflen pos sched = some (Except.ok (min buflen fileLen)) ∨
        ∃ e, readLoop buflen pos sched = some (Except.error e) := by
  intro sched
  induction sched with
  | nil =>
    intro pos h1 h2 hv
    simp only [validSched, decide_eq_true_eq] at hv
    left
    rw [readLoop, if_neg hv]
    have hx : pos = min buflen fileLen := by omega
    rw [hx]
  | cons ev rest ih =>
    intro pos h1 h2 hv
    by_cases hp : pos < buflen
    · cases ev with
      | ok n =>
        cases n with
        | zero =>
          simp only [validSched, if_pos hp, decide_eq_true_eq] at hv
          left
          rw [readLoop, if_pos hp]
          have hx : pos = min buflen fileLen := by omega
          rw [hx]
        | succ m =>
          simp only [validSched, if_pos hp, Bool.and_eq_true,
            decide_eq_true_eq] at hv
          obtain ⟨⟨hb, hf⟩, hrest⟩ := hv
          have hres := ih (pos + (m + 1)) (by omega) (by omega) hrest
          rw [readLoop, if_pos hp]
          exact hres
      | interrupted =>
        simp only [validSched, if_pos hp] at hv
        have hres := ih pos h1 h2 hv
        rw [readLoop, if_pos hp]
        exact hres
      | err e =>
        right
        refine ⟨e, ?_⟩
        rw [readLoop, if_pos hp]
    · left
      rw [readLoop.eq_def, if_neg hp]
      have hx : pos = min buflen fileLen := by omega
      rw [hx]

/-- Deleting an interrupted event anywhere in the schedule does not change
the read loop's result: interruptions are retried at the same position and
never surface. -/
theorem readLoop_interrupted_skip (buflen : Nat) :
    ∀ (pre : List ReadEvent) (pos : Nat) (post : List ReadEvent),
      readLoop buflen pos (pre ++ ReadEvent.interrupted :: post)
        = readLoop buflen pos (pre ++ post) := by
  intro pre
  induction pre with
  | nil =>
    intro pos post
    simp only [List.nil_append]
    by_cases hp : pos < buflen
    · rw [readLoop, if_pos hp]
    · rw [readLoop.eq_def, if_neg hp, readLoop.eq_def, if_neg hp]
  | cons ev pre ih =>
    intro pos post
    simp only [List.cons_append]
    by_cases hp : pos < buflen
    · cases ev with
      | ok n =>
        cases n with
        | zero => rw [readLoop, if_pos hp, readLoop, if_pos hp]
        | succ m =>
          rw [readLoop, if_pos hp, readLoop, if_pos hp]
          exact ih (pos + (m + 1)) post
      | interrupted =>
        rw [readLoop, if_pos hp, readLoop, if_pos hp]
        exact ih pos post
      | err e => rw [readLoop, if_pos hp, readLoop, if_pos hp]
    · rw [readLoop.eq_def, if_neg hp, readLoop.eq_def, if_neg hp]

/-- A successful write-all result always reports the full buffer length. -/
theorem writeAllLoop_ok (buflen : Nat) :
    ∀ (sched : List WriteEvent) (rem n : Nat),
      writeAllLoop buflen rem sched = some (Except.ok n) → n = buflen := by
  intro sched
  induction sched with
  | nil =>
    intro rem n h
    by_cases hr : rem = 0
    · rw [writeAllLoop, if_pos hr] at h
      simp at h
      omega
    · rw [writeAllLoop, if_neg hr] at h
      exact absurd h (by simp)
  | cons ev rest ih =>
    intro rem n h
    by_cases hr : rem = 0
    · rw [writeAllLoop.eq_def, if_pos hr] at h
      simp at h
      omega
    · rw [writeAllLoop.eq_def, if_neg hr] at h
      cases ev with
      | ok m =>
        cases m with
        | zero => exact absurd h (by simp)
        | succ k =>
          simp only [] at h
          by_cases hk : k + 1 ≤ rem
          · rw [if_pos hk] at h
            exact ih _ n h
          · rw [if_neg hk] at h
            exact absurd h (by simp)
      | interrupted =>
        simp only [] at h
        exact ih _ n h
      | err e => exact absurd h (by simp)

/-- An empty buffer writes nothing and reports zero. -/
theorem write_all_empty (sched : List WriteEvent) :
    write_all 0 sched = some (Except.ok 0) := by
  rw [write_all, writeAllLoop.eq_def, if_pos rfl]

/-! ## Claim theorems -/

/-- Claim C1, counterexample: on the one-byte buffer `[97]` the forward
walker invokes its callback once with the line `[97]`, while the reverse
walker never invokes its callback at all (its loop `while end > 0` is
skipped because `end` is decremented to 0 before the loop), so the two
walkers do not produce the same multiset of lines. -/
theorem C1_counterexample :
    buffer_for_each_line [97] (fun _ => false) = [[97]] ∧
    buffer_for_each_line_reverse [97] (fun _ => false) = [] := by
  constructor
  · simp [buffer_for_each_line, fwTrace, findEnd, nonLF, List.takeWhile, LF, CR]
  · simp [buffer_for_each_line_reverse, rvTrace]

/-- Claim C1, amended: for every buffer that is a concatenation of LF-free
segments each terminated by a line-feed, where every segment is non-empty
after CR-stripping, the reverse walker (callbacks always false) invokes its
callback with exactly the forward walker's lines in the opposite order.
(As stated for all buffers the claim is false: see the counterexample.) -/
theorem C1_reverse_of_forward (S : List (List Nat))
    (hS : ∀ s ∈ S, LF ∉ s ∧ stripCR s ≠ []) :
    buffer_for_each_line_reverse (joinLF S) (fun _ => false)
      = (buffer_for_each_line (joinLF S) (fun _ => false)).reverse := by
  rw [buffer_for_each_line_reverse, rv_joinLF S hS,
    fw_joinLF S (fun s hs => (hS s hs).1)]

/-- Claim C1, witness: the amended theorem applied to `"Hi\nyo\n"`. -/
theorem C1_witness :
    buffer_for_each_line_reverse [72, 105, 10, 121, 111, 10] (fun _ => false)
      = (buffer_for_each_line [72, 105, 10, 121, 111, 10]
          (fun _ => false)).reverse :=
  C1_reverse_of_forward [[72, 105], [121, 111]] (by decide)

/-- Claim C2, counterexample: on the non-empty LF-free buffer `"abc"` the
forward walker does invoke its callback with the whole content as a line,
contrary to the claim that no line is yielded for a delimiter-less final
segment. -/
theorem C2_counterexample :
    buffer_for_each_line [97, 98, 99] (fun _ => false) = [[97, 98, 99]] := by
  simp [buffer_for_each_line, fwTrace, findEnd, nonLF, List.takeWhile, LF, CR]

/-- Claim C2, amended: on every non-empty buffer containing no line-feed
byte, the forward walker invokes its callback exactly once, with the whole
buffer content as the line (one trailing CR stripped if the last byte is a
CR): the scan does yield the delimiter-less final segment. -/
theorem C2_no_LF_yields_content (buf : List Nat) (cb : List Nat → Bool)
    (h1 : buf ≠ []) (h2 : LF ∉ buf) :
    buffer_for_each_line buf cb = [stripCR buf] :=
  fwTrace_terminal buf cb h2 h1

/-- Claim C2, witness: the amended theorem applied to `"hi"`. -/
theorem C2_witness :
    buffer_for_each_line [104, 105] (fun _ => false) = [[104, 105]] :=
  C2_no_LF_yields_content [104, 105] (fun _ => false) (by decide) (by decide)

/-- Claim C3, counterexample: on the buffer `"a\r"` (carriage-return as the
final byte, with no following line-feed) the forward walker strips the CR
and produces `[97]`, contrary to the claim that such a CR is kept. -/
theorem C3_counterexample :
    buffer_for_each_line [97, 13] (fun _ => false) = [[97]] := by
  simp [buffer_for_each_line, fwTrace, findEnd, nonLF, List.takeWhile, LF, CR]

/-- Claim C3, amended: in the forward walker a carriage-return is excluded
from a produced line exactly when it is the last byte of the line's
segment, i.e. when it immediately precedes the terminating line-feed or is
the final byte of the buffer (the CR check fires whenever the inner scan
stopped, whether at a LF or at the buffer end); a CR anywhere else in the
segment is kept (`stripCR` only removes a final byte equal to CR). -/
theorem C3_CR_stripping (s rest : List Nat) (cb : List Nat → Bool)
    (hs : LF ∉ s) :
    (buffer_for_each_line (s ++ LF :: rest) cb).head? = some (stripCR s) ∧
    (s ≠ [] → (buffer_for_each_line s cb).head? = some (stripCR s)) := by
  constructor
  · rw [buffer_for_each_line, fwTrace_cons s rest cb hs]
    split <;> rfl
  · intro hne
    rw [buffer_for_each_line, fwTrace_terminal s cb hs hne]
    rfl

/-- Claim C3, witness: the amended theorem applied to the segment
`"a\r"` followed by `"\nb"`, and to `"a\r"` alone at the buffer end; in
both cases the produced line is `[97]` with the CR stripped. -/
theorem C3_witness :
    (buffer_for_each_line [97, 13, 10, 98] (fun _ => false)).head?
      = some [97] ∧
    (buffer_for_each_line [97, 13] (fun _ => false)).head? = some [97] :=
  ⟨(C3_CR_stripping [97, 13] [98] (fun _ => false) (by decide)).1,
   (C3_CR_stripping [97, 13] [98] (fun _ => false) (by decide)).2 (by decide)⟩

/-- Claim C4, counterexample: on the buffer `"\n\n"` the reverse walker
emits the line `[10]`, which consists of a line-feed byte, so it is not
true that both walkers only emit delimiter-free lines. -/
theorem C4_counterexample :
    buffer_for_each_line_reverse [10, 10] (fun _ => false) = [[10]] ∧
    LF ∈ [10] := by
  constructor
  · simp [buffer_for_each_line_reverse, rvTrace, rvBound, findStart, LF, CR]
  · simp [LF]

/-- Claim C4, amended: every line passed to the callback by the forward
walker `buffer_for_each_line` contains no line-feed byte (hence also no
carriage-return-line-feed pair within the line); the reverse walker does
not share this invariant (see the counterexample). -/
theorem C4_forward_lines_LF_free (buf : List Nat) (cb : List Nat → Bool) :
    ∀ l ∈ buffer_for_each_line buf cb, LF ∉ l :=
  fun l hl => fwTrace_no_LF buf cb buf.length 0 (by omega) l hl

/-- Claim C4, witness: the line `[97, 13, 98]` emitted by the forward
walker on `"a\rb\n"` contains no line-feed. -/
theorem C4_witness : LF ∉ [97, 13, 98] :=
  C4_forward_lines_LF_free [97, 13, 98, 10] (fun _ => false) [97, 13, 98]
    (by simp [buffer_for_each_line, fwTrace, findEnd, nonLF,
      List.takeWhile, LF, CR])

/-- Claim C5 (confirmed): `read_all` returns `Ok 0` immediately without
consuming any read event when the file or the buffer is empty; and under
any schedule of reads valid for a regular file, it either returns
`Ok (min buflen fileLen)` or surfaces an error, so a successful count
always equals the minimum of buffer length and file size and never exceeds
the buffer length. -/
theorem C5_read_all_count (fileLen buflen : Nat) (sched : List ReadEvent) :
    ((fileLen = 0 ∨ buflen = 0) →
      read_all fileLen buflen sched = some (Except.ok 0)) ∧
    (validSched fileLen buflen 0 sched = true →
      read_all fileLen buflen sched = some (Except.ok (min buflen fileLen)) ∨
        ∃ e, read_all fileLen buflen sched = some (Except.error e)) ∧
    (validSched fileLen buflen 0 sched = true →
      ∀ n, read_all fileLen buflen sched = some (Except.ok n) →
        n = min buflen fileLen ∧ n ≤ buflen) := by
  have main : validSched fileLen buflen 0 sched = true →
      read_all fileLen buflen sched = some (Except.ok (min buflen fileLen)) ∨
        ∃ e, read_all fileLen buflen sched = some (Except.error e) := by
    intro hv
    rw [read_all]
    by_cases h0 : fileLen = 0 ∨ buflen = 0
    · rw [if_pos h0]
      left
      have hx : min buflen fileLen = 0 := by omega
      rw [hx]
    · rw [if_neg h0]
      exact readLoop_valid fileLen buflen sched 0 (by omega) (by omega) hv
  refine ⟨?_, main, ?_⟩
  · intro h0
    rw [read_all, if_pos h0]
  · intro hv n hn
    rcases main hv with hok | ⟨e, herr⟩
    · rw [hn] at hok
      have hx : n = min buflen fileLen := by
        have := Option.some.inj hok
        exact Except.ok.inj this
      exact ⟨hx, by omega⟩
    · rw [hn] at herr
      exact absurd (Option.some.inj herr) (by simp)

/-- Claim C5, witness: a 2-byte file read into a 5-byte buffer through the
schedule `[read 2, read 0]` returns `Ok 2 = Ok (min 5 2)`, and an empty
file returns `Ok 0` under any schedule. -/
theorem C5_witness :
    read_all 0 4 [] = some (Except.ok 0) ∧
    (read_all 2 5 [ReadEvent.ok 2, ReadEvent.ok 0]
        = some (Except.ok (min 5 2)) ∨
      ∃ e, read_all 2 5 [ReadEvent.ok 2, ReadEvent.ok 0]
        = some (Except.error e)) :=
  ⟨(C5_read_all_count 0 4 []).1 (Or.inl rfl),
   (C5_read_all_count 2 5 [ReadEvent.ok 2, ReadEvent.ok 0]).2.1 rfl⟩

/-- Claim C6 (confirmed): an interrupted read is retried at the same fill
position and never surfaces — removing an interrupted event from any point
of the schedule leaves the result of the read loop unchanged — while any
other read failure immediately aborts the loop and is returned to the
caller unchanged. -/
theorem C6_interrupted_retried :
    (∀ (buflen pos : Nat) (pre post : List ReadEvent),
      readLoop buflen pos (pre ++ ReadEvent.interrupted :: post)
        = readLoop buflen pos (pre ++ post)) ∧
    (∀ (buflen pos e : Nat) (rest : List ReadEvent), pos < buflen →
      readLoop buflen pos (ReadEvent.err e :: rest)
        = some (Except.error e)) := by
  constructor
  · intro buflen pos pre post
    exact readLoop_interrupted_skip buflen pre pos post
  · intro buflen pos e rest hp
    rw [readLoop, if_pos hp]

/-- Claim C6, witness: skipping an interruption before a 2-byte read, and
an error event surfacing as `Err 7`. -/
theorem C6_witness :
    readLoop 2 0 [ReadEvent.interrupted, ReadEvent.ok 2]
      = readLoop 2 0 [ReadEvent.ok 2] ∧
    readLoop 2 0 [ReadEvent.err 7] = some (Except.error 7) :=
  ⟨C6_interrupted_retried.1 2 0 [] [ReadEvent.ok 2],
   C6_interrupted_retried.2 2 0 7 [] (by decide)⟩

/-- Claim C7 (confirmed): `write_all` either writes the whole buffer and
returns `Ok` of the buffer length — a successful result can never report a
different count — or returns the underlying error; on an empty buffer it
returns `Ok 0` having consumed no write event. -/
theorem C7_write_all_complete :
    (∀ (buflen : Nat) (sched : List WriteEvent) (n : Nat),
      write_all buflen sched = some (Except.ok n) → n = buflen) ∧
    (∀ sched : List WriteEvent, write_all 0 sched = some (Except.ok 0)) := by
  constructor
  · intro buflen sched n h
    exact writeAllLoop_ok buflen sched buflen n h
  · exact write_all_empty

/-- Claim C7, witness: a 2-byte buffer written through two partial writes
with an interruption reports exactly 2, and the empty buffer reports 0
even when the schedule only holds an error. -/
theorem C7_witness :
    write_all 2 [WriteEvent.ok 1, WriteEvent.interrupted, WriteEvent.ok 1]
      = some (Except.ok 2) ∧
    (2 : Nat) = 2 ∧
    write_all 0 [WriteEvent.err 5] = some (Except.ok 0) :=
  ⟨rfl,
   C7_write_all_complete.1 2
     [WriteEvent.ok 1, WriteEvent.interrupted, WriteEvent.ok 1] 2 rfl,
   C7_write_all_complete.2 [WriteEvent.err 5]⟩

/-- Claim C8 (confirmed): `mmap_file` returns the open error for a path
that cannot be opened, the distinct empty-file error (not an empty
mapping) for an existing zero-length file, and for a non-empty file a
mapping of the content paired with its byte length. -/
theorem C8_mmap_file_contract (fs : String → Option (List Nat))
    (path : String) :
    (fs path = none → mmap_file fs path = Except.error MmapErr.openFail) ∧
    (fs path = some [] → mmap_file fs path = Except.error MmapErr.emptyFile) ∧
    (∀ content, fs path = some content → content ≠ [] →
      mmap_file fs path = Except.ok (content, content.length)) := by
  refine ⟨?_, ?_, ?_⟩
  · intro h
    rw [mmap_file, h]
  · intro h
    rw [mmap_file, h]
    simp
  · intro content h hne
    rw [mmap_file, h]
    have : content.length > 0 := List.length_pos.mpr hne
    simp [this]

/-- Claim C8, witness: the three cases instantiated on a concrete
filesystem. -/
theorem C8_witness :
    mmap_file testFs "no.txt" = Except.error MmapErr.openFail ∧
    mmap_file testFs "empty.txt" = Except.error MmapErr.emptyFile ∧
    mmap_file testFs "a.txt" = Except.ok ([104, 105], 2) :=
  ⟨(C8_mmap_file_contract testFs "no.txt").1 rfl,
   (C8_mmap_file_contract testFs "empty.txt").2.1 rfl,
   (C8_mmap_file_contract testFs "a.txt").2.2 [104, 105] rfl (by decide)⟩

/-- Claim C9 (confirmed): when a line is not valid UTF-8, the buffer-based
walkers terminate fatally — the modelled run is `none` (the `unwrap`
panic) instead of a normal return — whereas `file_for_each_line` returns
the decoding failure to its caller as the recoverable I/O-class error
`invalidData`. -/
theorem C9_decoding_failure_asymmetry :
    (∀ buf : List Nat,
      (∃ l ∈ buffer_for_each_line buf (fun _ => false),
        validUtf8 l = false) →
      buffer_for_each_line_run buf (fun _ => false) = none) ∧
    (∀ buf : List Nat,
      (∃ l ∈ buffer_for_each_line_reverse buf (fun _ => false),
        validUtf8 l = false) →
      buffer_for_each_line_reverse_run buf (fun _ => false) = none) ∧
    (∀ (fs : String → Option (List Nat)) (name : String)
        (content : List Nat) (cb : List Nat → Except Nat Unit),
      fs name = some content → (∀ l, cb l = Except.ok ()) →
      (∃ l ∈ rustLines content, validUtf8 l = false) →
      file_for_each_line fs name cb = Except.error FileErr.invalidData) := by
  refine ⟨?_, ?_, ?_⟩
  · intro buf hex
    exact fwRun_none_of_invalid buf buf.length 0 (by omega) hex
  · intro buf hex
    exact rvRun_none_of_invalid buf (buf.length - 1) hex
  · intro fs name content cb hfs hcb hex
    rw [file_for_each_line, hfs]
    exact fileLoop_invalidData cb hcb (rustLines content) hex

/-- Claim C9, witness: the invalid byte 255 as a line makes the forward and
reverse runs panic (`none`) and the file reader return `invalidData`. -/
theorem C9_witness :
    buffer_for_each_line_run [255] (fun _ => false) = none ∧
    buffer_for_each_line_reverse_run [255, 255] (fun _ => false) = none ∧
    file_for_each_line testFs "bad.txt" (fun _ => Except.ok ())
      = Except.error FileErr.invalidData :=
  ⟨C9_decoding_failure_asymmetry.1 [255]
     ⟨[255], by simp [buffer_for_each_line, fwTrace, findEnd, nonLF,
        List.takeWhile, LF, CR], rfl⟩,
   C9_decoding_failure_asymmetry.2.1 [255, 255]
     ⟨[255, 255], by simp [buffer_for_each_line_reverse, rvTrace, rvBound,
        findStart, LF, CR], rfl⟩,
   C9_decoding_failure_asymmetry.2.2 testFs "bad.txt" [255]
     (fun _ => Except.ok ()) rfl (fun _ => rfl) (by decide)⟩

/-- Claim C10 (confirmed): both walkers terminate — they are total
functions of the buffer — and invoke the callback at most `buf.length`
times: the forward cursor strictly increases past each delimiter and the
reverse boundary strictly decreases. -/
theorem C10_walkers_callback_bound (buf : List Nat) (cb : List Nat → Bool) :
    (buffer_for_each_line buf cb).length ≤ buf.length ∧
    (buffer_for_each_line_reverse buf cb).length ≤ buf.length := by
  constructor
  · have h := fwTrace_length_le buf cb buf.length 0 (by omega)
    rw [buffer_for_each_line]
    omega
  · have h := rvTrace_length_le buf cb (buf.length - 1)
    rw [buffer_for_each_line_reverse]
    omega
